import Mathlib

/-!
# Verification of the exercise-tracker store (`src/server.js`)

Shallow embedding of the data model and the six HTTP handlers of
`server.js`.  A JSON document is modelled as an association list from
section names to ordered lists of exercises; JavaScript object key order
(insertion order for string keys) is the list order.  The on-disk value
may be either the legacy bare array of exercises or the sections mapping,
modelled by `JsonDoc`.
-/

namespace ExerciseTracker

/-- An exercise record `{ name: string }`. -/
structure Exercise where
  name : String
deriving DecidableEq

/-- A sections document: ordered mapping from section name to its ordered
list of exercises, as a JavaScript object with string keys. -/
abbrev Doc := List (String × List Exercise)

/-- A parsed on-disk JSON value: either the legacy bare array of exercise
records or the current sections mapping. -/
inductive JsonDoc where
  /-- legacy format: bare array of exercises -/
  | arr (exs : List Exercise)
  /-- current format: mapping of section name to exercises -/
  | obj (d : Doc)
deriving DecidableEq

/-- The ECMAScript WhiteSpace and LineTerminator code points stripped by
`String.prototype.trim`. -/
def jsWhitespace (c : Char) : Bool :=
  [0x9, 0xA, 0xB, 0xC, 0xD, 0x20, 0xA0, 0x1680,
   0x2000, 0x2001, 0x2002, 0x2003, 0x2004, 0x2005, 0x2006, 0x2007,
   0x2008, 0x2009, 0x200A, 0x2028, 0x2029, 0x202F, 0x205F, 0x3000,
   0xFEFF].contains c.toNat

/-- `String.prototype.trim`: strip leading and trailing whitespace. -/
def jsTrim (s : String) : String :=
  ⟨((s.data.dropWhile jsWhitespace).reverse.dropWhile jsWhitespace).reverse⟩

/-- Lower-casing of one character (ASCII range of
`String.prototype.toLowerCase`, the only case mapping this model needs). -/
def lowerChar (c : Char) : Char :=
  if 'A' ≤ c ∧ c ≤ 'Z' then Char.ofNat (c.toNat + 32) else c

/-- `String.prototype.toLowerCase` on the modelled character range. -/
def lowerStr (s : String) : String :=
  ⟨s.data.map lowerChar⟩

/-- JavaScript object property read `sections[k]`: first (and, for a real
JS object, only) entry with key `k`. -/
def getSec : Doc → String → Option (List Exercise)
  | [], _ => none
  | (k', v) :: rest, k => if k' = k then some v else getSec rest k

/-- JavaScript object property write `sections[k] = v`: replace the value
of an existing key in place, otherwise append the new key last. -/
def setSec : Doc → String → List Exercise → Doc
  | [], k, v => [(k, v)]
  | (k', v') :: rest, k, v =>
    if k' = k then (k, v) :: rest else (k', v') :: setSec rest k v

/-- JavaScript `delete sections[k]`: remove the entry with key `k`. -/
def delSec (d : Doc) (k : String) : Doc :=
  d.filter (fun p => p.1 != k)

/-- `Object.keys(sections)`. -/
def secNames (d : Doc) : List String :=
  d.map Prod.fst

/-- `normalizeData` of `server.js` (on the parsed JSON value): wrap a
legacy array as `{ 'General': parsed }`, leave a mapping unchanged. -/
def normalizeData : JsonDoc → JsonDoc
  | .arr exs => .obj [("General", exs)]
  | .obj d => .obj d

/-- The sections mapping carried by a normalized value: the in-memory
document every handler works on after its read-and-normalize step. -/
def docOf : JsonDoc → Doc
  | .arr exs => [("General", exs)]
  | .obj d => d

/-- The error responses the handlers produce, by status category and the
message string sent in the response body. -/
inductive StoreError where
  /-- 400, empty or whitespace-only required field -/
  | invalidInput (msg : String)
  /-- 404, referenced section or exercise absent -/
  | notFound (msg : String)
  /-- 400, duplicate exercise or section name -/
  | conflict (msg : String)
  /-- 400, `Cannot delete the last section` -/
  | lastSection
deriving DecidableEq

/-- `POST /api/exercises` body `{name, section}`, acting on the
normalized in-memory document (lines 120-160 of `server.js`). -/
def addExercise (name sec : String) (d : Doc) : Except StoreError Doc :=
  if jsTrim name = "" then .error (.invalidInput "Exercise name is required")
  else if jsTrim sec = "" then .error (.invalidInput "Section name is required")
  else
    let trimmedName := jsTrim name
    let trimmedSection := jsTrim sec
    match getSec d trimmedSection with
    | none => .error (.notFound "Section not found")
    | some exs =>
      if exs.any (fun ex => lowerStr ex.name == lowerStr trimmedName) then
        .error (.conflict "Exercise already exists in this section")
      else
        .ok (setSec d trimmedSection (exs ++ [⟨trimmedName⟩]))

/-- `DELETE /api/exercises/:section/:name` with percent-decoded path
segments, acting on the normalized in-memory document (lines 163-193 of
`server.js`).  Note: the decoded parameters are used as given, with no
trimming, and deletion filters by exact name equality. -/
def deleteExercise (sec name : String) (d : Doc) : Except StoreError Doc :=
  match getSec d sec with
  | none => .error (.notFound "Section not found")
  | some exs =>
    let filtered := exs.filter (fun ex => ex.name != name)
    if filtered.length = exs.length then .error (.notFound "Exercise not found")
    else .ok (setSec d sec filtered)

/-- `POST /api/sections` body `{name}`, acting on the normalized
in-memory document (lines 210-238 of `server.js`). -/
def addSection (name : String) (d : Doc) : Except StoreError Doc :=
  if jsTrim name = "" then .error (.invalidInput "Section name is required")
  else
    let trimmedName := jsTrim name
    match getSec d trimmedName with
    | some _ => .error (.conflict "Section already exists")
    | none => .ok (setSec d trimmedName [])

/-- `DELETE /api/sections/:name` with a percent-decoded path segment,
acting on the normalized in-memory document (lines 241-268 of
`server.js`).  The decoded name is used as given, with no trimming. -/
def deleteSection (name : String) (d : Doc) : Except StoreError Doc :=
  match getSec d name with
  | none => .error (.notFound "Section not found")
  | some _ =>
    if (secNames d).length = 1 then .error .lastSection
    else .ok (delSec d name)

instance : DecidableEq (Except StoreError Doc) := fun a b =>
  match a, b with
  | .error e, .error e' =>
    if h : e = e' then .isTrue (by rw [h]) else .isFalse (by simp [h])
  | .ok d, .ok d' =>
    if h : d = d' then .isTrue (by rw [h]) else .isFalse (by simp [h])
  | .error _, .ok _ => .isFalse (by simp)
  | .ok _, .error _ => .isFalse (by simp)

/-- True exactly on the error results. -/
def isErr : Except StoreError Doc → Bool
  | .error _ => true
  | .ok _ => false

/-- True exactly on the 400 `InvalidInput` errors. -/
def isInvalidInput : Except StoreError Doc → Bool
  | .error (.invalidInput _) => true
  | _ => false

/-! ## Handlers at the file level

Each mutating handler reads the backing file, normalizes it, runs the
document operation, and writes the full updated document back only on
success; every error path returns before `fs.writeFile`.  The pair is
(response, backing file after the request). -/

/-- `POST /api/exercises` end to end. -/
def runAddExercise (name sec : String) (file : JsonDoc) :
    Except StoreError Doc × JsonDoc :=
  match addExercise name sec (docOf file) with
  | .error e => (.error e, file)
  | .ok d' => (.ok d', .obj d')

/-- `DELETE /api/exercises/:section/:name` end to end. -/
def runDeleteExercise (sec name : String) (file : JsonDoc) :
    Except StoreError Doc × JsonDoc :=
  match deleteExercise sec name (docOf file) with
  | .error e => (.error e, file)
  | .ok d' => (.ok d', .obj d')

/-- `POST /api/sections` end to end. -/
def runAddSection (name : String) (file : JsonDoc) :
    Except StoreError Doc × JsonDoc :=
  match addSection name (docOf file) with
  | .error e => (.error e, file)
  | .ok d' => (.ok d', .obj d')

/-- `DELETE /api/sections/:name` end to end. -/
def runDeleteSection (name : String) (file : JsonDoc) :
    Except StoreError Doc × JsonDoc :=
  match deleteSection name (docOf file) with
  | .error e => (.error e, file)
  | .ok d' => (.ok d', .obj d')

/-- `GET /api/exercises` end to end (lines 101-117 of `server.js`): the
handler reads and normalizes in memory only, and never writes. -/
def runGetExercises (file : JsonDoc) : Doc × JsonDoc :=
  (docOf file, file)

/-- `GET /api/sections` end to end (lines 196-207 of `server.js`): the
handler reads and normalizes in memory only, and never writes. -/
def runGetSections (file : JsonDoc) : List String × JsonDoc :=
  (secNames (docOf file), file)

/-- Case-insensitive uniqueness of exercise names within one section:
the add-time invariant. -/
def sectionOk (exs : List Exercise) : Prop :=
  (exs.map (fun ex => lowerStr ex.name)).Nodup

instance (exs : List Exercise) : Decidable (sectionOk exs) := by
  unfold sectionOk
  infer_instance

/-- The document created on first start: `{ 'General': [] }`. -/
def initDoc : Doc := [("General", [])]

/-- Documents reachable from the initial document by successful store
operations. -/
inductive Reachable : Doc → Prop where
  | init : Reachable initDoc
  | addEx {d d' : Doc} {n s : String} :
      Reachable d → addExercise n s d = .ok d' → Reachable d'
  | delEx {d d' : Doc} {s n : String} :
      Reachable d → deleteExercise s n d = .ok d' → Reachable d'
  | addSec {d d' : Doc} {n : String} :
      Reachable d → addSection n d = .ok d' → Reachable d'
  | delSec {d d' : Doc} {n : String} :
      Reachable d → deleteSection n d = .ok d' → Reachable d'

/-- The preserved document invariant: at least one section, unique
section names (a JavaScript object cannot hold duplicate keys), and
case-insensitive uniqueness of exercise names within each section. -/
def Inv (d : Doc) : Prop :=
  d ≠ [] ∧ (secNames d).Nodup ∧ ∀ p ∈ d, sectionOk p.2

/-- Every string stored in a document: all section names and all
exercise names. -/
def docStrings (d : Doc) : List String :=
  secNames d ++ (d.map (fun p => p.2.map (fun ex => ex.name))).flatten

/-! ## Lemmas about the object primitives -/

theorem getSec_setSec_self (d : Doc) (k : String) (v : List Exercise) :
    getSec (setSec d k v) k = some v := by
  induction d with
  | nil => simp [setSec, getSec]
  | cons p rest ih =>
    obtain ⟨k', v'⟩ := p
    by_cases h : k' = k
    · simp [setSec, getSec, h]
    · simp [setSec, getSec, h, ih]

theorem getSec_setSec_ne (d : Doc) (k k' : String) (v : List Exercise)
    (h : k' ≠ k) : getSec (setSec d k v) k' = getSec d k' := by
  have h' : k ≠ k' := Ne.symm h
  induction d with
  | nil => simp [setSec, getSec, h']
  | cons p rest ih =>
    obtain ⟨k₀, v₀⟩ := p
    by_cases hk : k₀ = k
    · subst hk
      simp [setSec, getSec, h']
    · simp only [setSec, if_neg hk, getSec]
      by_cases hk' : k₀ = k'
      · simp [hk']
      · simp [hk', ih]

theorem secNames_setSec (d : Doc) (k : String) (v w : List Exercise)
    (h : getSec d k = some w) : secNames (setSec d k v) = secNames d := by
  induction d with
  | nil => simp [getSec] at h
  | cons p rest ih =>
    obtain ⟨k₀, v₀⟩ := p
    by_cases hk : k₀ = k
    · simp [setSec, hk, secNames]
    · simp only [getSec, if_neg hk] at h
      have := ih h
      simp only [secNames, List.map_cons] at this ⊢
      simp [setSec, hk, this]

theorem setSec_of_getSec_none (d : Doc) (k : String) (v : List Exercise)
    (h : getSec d k = none) : setSec d k v = d ++ [(k, v)] := by
  induction d with
  | nil => simp [setSec]
  | cons p rest ih =>
    obtain ⟨k₀, v₀⟩ := p
    by_cases hk : k₀ = k
    · simp [getSec, hk] at h
    · simp only [getSec, if_neg hk] at h
      simp [setSec, hk, ih h]

theorem getSec_eq_none_iff (d : Doc) (k : String) :
    getSec d k = none ↔ k ∉ secNames d := by
  induction d with
  | nil => simp [getSec, secNames]
  | cons p rest ih =>
    obtain ⟨k₀, v₀⟩ := p
    by_cases hk : k₀ = k
    · simp [getSec, hk, secNames]
    · have hk' : ¬k = k₀ := fun hh => hk hh.symm
      simp only [getSec, if_neg hk, secNames, List.map_cons, List.mem_cons]
      simp only [secNames] at ih
      simp [ih, hk']

theorem getSec_mem (d : Doc) (k : String) (v : List Exercise)
    (h : getSec d k = some v) : (k, v) ∈ d := by
  induction d with
  | nil => simp [getSec] at h
  | cons p rest ih =>
    obtain ⟨k₀, v₀⟩ := p
    by_cases hk : k₀ = k
    · simp [getSec, hk] at h
      simp [hk, h]
    · simp only [getSec, if_neg hk] at h
      exact List.mem_cons_of_mem _ (ih h)

theorem mem_setSec (d : Doc) (k : String) (v : List Exercise)
    (p : String × List Exercise) (hp : p ∈ setSec d k v) :
    p ∈ d ∨ p = (k, v) := by
  induction d with
  | nil => simp [setSec] at hp; simp [hp]
  | cons q rest ih =>
    obtain ⟨k₀, v₀⟩ := q
    by_cases hk : k₀ = k
    · simp only [setSec, if_pos hk] at hp
      rcases List.mem_cons.mp hp with h | h
      · right; exact h
      · left; exact List.mem_cons_of_mem _ h
    · simp only [setSec, if_neg hk] at hp
      rcases List.mem_cons.mp hp with h | h
      · left; exact h ▸ List.mem_cons_self _ _
      · rcases ih h with h' | h'
        · left; exact List.mem_cons_of_mem _ h'
        · right; exact h'

theorem getSec_delSec_self (d : Doc) (k : String) :
    getSec (delSec d k) k = none := by
  induction d with
  | nil => simp [delSec, getSec]
  | cons p rest ih =>
    obtain ⟨k₀, v₀⟩ := p
    simp only [delSec] at ih
    by_cases hk : k₀ = k
    · subst hk
      simp [delSec, List.filter_cons, ih]
    · have hne : (k₀ != k) = true := bne_iff_ne.mpr hk
      simp [delSec, List.filter_cons, hne, getSec, hk, ih]

theorem getSec_delSec_ne (d : Doc) (k k' : String) (h : k' ≠ k) :
    getSec (delSec d k) k' = getSec d k' := by
  induction d with
  | nil => simp [delSec, getSec]
  | cons p rest ih =>
    obtain ⟨k₀, v₀⟩ := p
    simp only [delSec] at ih
    by_cases hk : k₀ = k
    · subst hk
      have h' : k₀ ≠ k' := fun hh => h hh.symm
      simp [delSec, List.filter_cons, getSec, h', ih]
    · have hne : (k₀ != k) = true := bne_iff_ne.mpr hk
      by_cases hk' : k₀ = k'
      · simp [delSec, List.filter_cons, hne, getSec, hk', h]
      · simp [delSec, List.filter_cons, hne, getSec, hk', ih]

theorem length_filter_lt_of_mem {α : Type} {l : List α} {p : α → Bool} {a : α}
    (ha : a ∈ l) (hpa : p a = false) : (l.filter p).length < l.length := by
  induction l with
  | nil => simp at ha
  | cons x xs ih =>
    rcases List.mem_cons.mp ha with h | h
    · subst h
      rw [List.filter_cons, if_neg (by simp [hpa])]
      exact Nat.lt_succ_of_le (List.length_filter_le _ _)
    · by_cases hx : p x = true
      · rw [List.filter_cons, if_pos hx]
        simp only [List.length_cons]
        exact Nat.succ_lt_succ (ih h)
      · rw [List.filter_cons, if_neg hx]
        exact Nat.lt_succ_of_le (Nat.le_of_lt (ih h))

theorem getSec_some_decomp (d : Doc) (k : String) (v : List Exercise)
    (h : getSec d k = some v) :
    ∃ l₁ l₂, d = l₁ ++ (k, v) :: l₂ ∧ k ∉ secNames l₁ := by
  induction d with
  | nil => simp [getSec] at h
  | cons p rest ih =>
    obtain ⟨k₀, v₀⟩ := p
    by_cases hk : k₀ = k
    · subst hk
      simp only [getSec, if_pos rfl, if_true, eq_self_iff_true,
        Option.some.injEq] at h
      exact ⟨[], rest, by simp [h], by simp [secNames]⟩
    · simp only [getSec, if_neg hk] at h
      obtain ⟨l₁, l₂, hd, hn⟩ := ih h
      refine ⟨(k₀, v₀) :: l₁, l₂, by simp [hd], ?_⟩
      have hk' : ¬k = k₀ := fun hh => hk hh.symm
      simp only [secNames, List.map_cons, List.mem_cons]
      simp only [secNames] at hn
      simp [hk', hn]

theorem filter_keys_eq_self (l : Doc) (k : String) (h : k ∉ secNames l) :
    l.filter (fun p => p.1 != k) = l := by
  apply List.filter_eq_self.mpr
  intro p hp
  have hmem : p.1 ∈ secNames l := List.mem_map_of_mem _ hp
  exact bne_iff_ne.mpr (fun he => h (he ▸ hmem))

theorem delSec_decomp (d : Doc) (k : String) (v : List Exercise)
    (hnd : (secNames d).Nodup) (h : getSec d k = some v) :
    ∃ l₁ l₂, d = l₁ ++ (k, v) :: l₂ ∧ delSec d k = l₁ ++ l₂ := by
  obtain ⟨l₁, l₂, hd, hn1⟩ := getSec_some_decomp d k v h
  subst hd
  have hnd' : k ∉ secNames l₂ := by
    simp only [secNames, List.map_append, List.map_cons] at hnd
    have := (List.nodup_append.mp hnd).2.1
    exact (List.nodup_cons.mp this).1
  refine ⟨l₁, l₂, rfl, ?_⟩
  simp only [delSec, List.filter_append, List.filter_cons, bne_self_eq_false,
    Bool.false_eq_true, if_false]
  rw [filter_keys_eq_self l₁ k hn1, filter_keys_eq_self l₂ k hnd']

theorem sectionOk_nodup {exs : List Exercise} (h : sectionOk exs) :
    exs.Nodup :=
  List.Nodup.of_map _ h

theorem filter_name_of_not_mem {exs : List Exercise} {n : String}
    (h : Exercise.mk n ∉ exs) :
    exs.filter (fun ex => ex.name != n) = exs := by
  apply List.filter_eq_self.mpr
  intro ex hex
  obtain ⟨m⟩ := ex
  exact bne_iff_ne.mpr (fun he => h (he ▸ hex))

theorem filter_name_eq_erase {exs : List Exercise} {n : String}
    (hok : sectionOk exs) :
    exs.filter (fun ex => ex.name != n) = exs.erase ⟨n⟩ := by
  rw [(sectionOk_nodup hok).erase_eq_filter]
  apply List.filter_congr
  intro ex _
  obtain ⟨m⟩ := ex
  by_cases hh : m = n
  · simp [hh]
  · have h1 : (m != n) = true := bne_iff_ne.mpr hh
    have h2 : (Exercise.mk m != Exercise.mk n) = true :=
      bne_iff_ne.mpr (by simp [Exercise.mk.injEq, hh])
    rw [h1, h2]

/-! ## Inversion of successful operations -/

theorem addExercise_ok_inv {d d' : Doc} {n s : String}
    (h : addExercise n s d = .ok d') :
    ∃ exs, getSec d (jsTrim s) = some exs
      ∧ exs.any (fun ex => lowerStr ex.name == lowerStr (jsTrim n)) = false
      ∧ d' = setSec d (jsTrim s) (exs ++ [⟨jsTrim n⟩]) := by
  by_cases h1 : jsTrim n = ""
  · simp [addExercise, h1] at h
  · by_cases h2 : jsTrim s = ""
    · simp [addExercise, h1, h2] at h
    · cases hg : getSec d (jsTrim s) with
      | none => simp [addExercise, h1, h2, hg] at h
      | some exs =>
        cases hany : exs.any
            (fun ex => lowerStr ex.name == lowerStr (jsTrim n)) with
        | true => simp [addExercise, h1, h2, hg, hany] at h
        | false =>
          simp [addExercise, h1, h2, hg, hany] at h
          exact ⟨exs, rfl, hany, h.symm⟩

theorem deleteExercise_ok_inv {d d' : Doc} {s n : String}
    (h : deleteExercise s n d = .ok d') :
    ∃ exs, getSec d s = some exs
      ∧ d' = setSec d s (exs.filter (fun ex => ex.name != n)) := by
  cases hg : getSec d s with
  | none => simp [deleteExercise, hg] at h
  | some exs =>
    by_cases hl : (exs.filter (fun ex => ex.name != n)).length = exs.length
    · simp [deleteExercise, hg, hl] at h
    · simp [deleteExercise, hg, hl] at h
      exact ⟨exs, rfl, h.symm⟩

theorem addSection_ok_inv {d d' : Doc} {n : String}
    (h : addSection n d = .ok d') :
    jsTrim n ≠ "" ∧ getSec d (jsTrim n) = none
      ∧ d' = d ++ [(jsTrim n, [])] := by
  by_cases h1 : jsTrim n = ""
  · simp [addSection, h1] at h
  · cases hg : getSec d (jsTrim n) with
    | some exs => simp [addSection, h1, hg] at h
    | none =>
      simp [addSection, h1, hg] at h
      refine ⟨h1, rfl, ?_⟩
      rw [← h, setSec_of_getSec_none d (jsTrim n) [] hg]

theorem deleteSection_ok_inv {d d' : Doc} {n : String}
    (h : deleteSection n d = .ok d') :
    ∃ exs, getSec d n = some exs ∧ (secNames d).length ≠ 1
      ∧ d' = delSec d n := by
  cases hg : getSec d n with
  | none => simp [deleteSection, hg] at h
  | some exs =>
    by_cases hl : (secNames d).length = 1
    · simp [deleteSection, hg, hl] at h
    · simp [deleteSection, hg, hl] at h
      exact ⟨exs, rfl, hl, h.symm⟩

/-! ## Preservation of the invariant -/

theorem setSec_ne_nil (d : Doc) (k : String) (v : List Exercise) :
    setSec d k v ≠ [] := by
  cases d with
  | nil => simp [setSec]
  | cons p rest =>
    obtain ⟨k₀, v₀⟩ := p
    by_cases h : k₀ = k <;> simp [setSec, h]

theorem sectionOk_append {exs : List Exercise} {n : String}
    (hok : sectionOk exs)
    (hdup : exs.any (fun ex => lowerStr ex.name == lowerStr n) = false) :
    sectionOk (exs ++ [⟨n⟩]) := by
  simp only [sectionOk, List.map_append, List.map_cons, List.map_nil]
  rw [List.nodup_append]
  refine ⟨hok, List.nodup_singleton _, fun x hx hy => ?_⟩
  simp only [List.mem_singleton] at hy
  simp only [List.mem_map] at hx
  obtain ⟨ex, hex, hxe⟩ := hx
  rw [List.any_eq_false] at hdup
  exact hdup ex hex (by simp [hxe, hy])

theorem sectionOk_filter {exs : List Exercise} (p : Exercise → Bool)
    (hok : sectionOk exs) : sectionOk (exs.filter p) :=
  List.Nodup.sublist ((List.filter_sublist exs).map _) hok

theorem inv_addExercise {d d' : Doc} {n s : String} (hin : Inv d)
    (h : addExercise n s d = .ok d') : Inv d' := by
  obtain ⟨exs, hg, hany, hd'⟩ := addExercise_ok_inv h
  subst hd'
  refine ⟨setSec_ne_nil _ _ _, ?_, ?_⟩
  · rw [secNames_setSec _ _ _ _ hg]
    exact hin.2.1
  · intro p hp
    rcases mem_setSec _ _ _ _ hp with hpd | hpe
    · exact hin.2.2 p hpd
    · subst hpe
      exact sectionOk_append
        (hin.2.2 (jsTrim s, exs) (getSec_mem _ _ _ hg)) hany

theorem inv_deleteExercise {d d' : Doc} {s n : String} (hin : Inv d)
    (h : deleteExercise s n d = .ok d') : Inv d' := by
  obtain ⟨exs, hg, hd'⟩ := deleteExercise_ok_inv h
  subst hd'
  refine ⟨setSec_ne_nil _ _ _, ?_, ?_⟩
  · rw [secNames_setSec _ _ _ _ hg]
    exact hin.2.1
  · intro p hp
    rcases mem_setSec _ _ _ _ hp with hpd | hpe
    · exact hin.2.2 p hpd
    · subst hpe
      exact sectionOk_filter _ (hin.2.2 (s, exs) (getSec_mem _ _ _ hg))

theorem inv_addSection {d d' : Doc} {n : String} (hin : Inv d)
    (h : addSection n d = .ok d') : Inv d' := by
  obtain ⟨hne, hg, hd'⟩ := addSection_ok_inv h
  subst hd'
  refine ⟨by simp, ?_, ?_⟩
  · simp only [secNames, List.map_append, List.map_cons, List.map_nil]
    rw [List.nodup_append]
    refine ⟨hin.2.1, List.nodup_singleton _, fun x hx hy => ?_⟩
    simp only [List.mem_singleton] at hy
    subst hy
    exact (getSec_eq_none_iff d _).mp hg hx
  · intro p hp
    rcases List.mem_append.mp hp with hpd | hpe
    · exact hin.2.2 p hpd
    · simp only [List.mem_singleton] at hpe
      subst hpe
      simp [sectionOk]

theorem inv_deleteSection {d d' : Doc} {n : String} (hin : Inv d)
    (h : deleteSection n d = .ok d') : Inv d' := by
  obtain ⟨exs, hg, hlen, hd'⟩ := deleteSection_ok_inv h
  subst hd'
  obtain ⟨l₁, l₂, hdec, hdel⟩ := delSec_decomp d n exs hin.2.1 hg
  refine ⟨?_, ?_, ?_⟩
  · rw [hdel]
    intro hnil
    rcases List.append_eq_nil.mp hnil with ⟨e1, e2⟩
    subst e1
    subst e2
    rw [hdec] at hlen
    simp [secNames] at hlen
  · have hsub : List.Sublist (delSec d n) d := by
      simp only [delSec]
      exact List.filter_sublist d
    exact List.Nodup.sublist (hsub.map _) hin.2.1
  · intro p hp
    simp only [delSec] at hp
    exact hin.2.2 p (List.mem_of_mem_filter hp)

theorem reachable_inv {d : Doc} (h : Reachable d) : Inv d := by
  induction h with
  | init =>
    refine ⟨by simp [initDoc], by simp [initDoc, secNames], ?_⟩
    intro p hp
    simp only [initDoc, List.mem_singleton] at hp
    subst hp
    simp [sectionOk]
  | addEx _ hop ih => exact inv_addExercise ih hop
  | delEx _ hop ih => exact inv_deleteExercise ih hop
  | addSec _ hop ih => exact inv_addSection ih hop
  | delSec _ hop ih => exact inv_deleteSection ih hop

/-! ## Trimming lemmas -/

theorem head?_dropWhile_ws {p : Char → Bool} {l : List Char} {c : Char}
    (h : (l.dropWhile p).head? = some c) : p c = false := by
  have hh := List.head?_dropWhile_not p l
  rw [h] at hh
  exact hh

theorem dropWhile_head_eq_self {p : Char → Bool} {l : List Char}
    (h : ∀ c, l.head? = some c → p c = false) : l.dropWhile p = l := by
  cases l with
  | nil => rfl
  | cons x xs =>
    have hx := h x rfl
    simp [List.dropWhile_cons, hx]

theorem getLast?_dropWhile_of_ne_nil {p : Char → Bool} {l : List Char}
    (h : l.dropWhile p ≠ []) : (l.dropWhile p).getLast? = l.getLast? := by
  obtain ⟨t, ht⟩ := List.dropWhile_suffix p (l := l)
  conv_rhs => rw [← ht]
  rw [List.getLast?_append]
  cases hr : (l.dropWhile p).getLast? with
  | none => exact absurd (List.getLast?_eq_none_iff.mp hr) h
  | some c => rfl

theorem jsTrim_data (s : String) : (jsTrim s).data =
    ((s.data.dropWhile jsWhitespace).reverse.dropWhile jsWhitespace).reverse :=
  rfl

theorem jsTrim_head {s : String} {c : Char}
    (h : (jsTrim s).data.head? = some c) : jsWhitespace c = false := by
  rw [jsTrim_data, List.head?_reverse] at h
  have hne :
      (s.data.dropWhile jsWhitespace).reverse.dropWhile jsWhitespace ≠ [] := by
    intro hnil
    rw [hnil] at h
    cases h
  rw [getLast?_dropWhile_of_ne_nil hne, List.getLast?_reverse] at h
  exact head?_dropWhile_ws h

theorem jsTrim_last {s : String} {c : Char}
    (h : (jsTrim s).data.getLast? = some c) : jsWhitespace c = false := by
  rw [jsTrim_data, List.getLast?_reverse] at h
  exact head?_dropWhile_ws h

theorem jsTrim_idem (s : String) : jsTrim (jsTrim s) = jsTrim s := by
  have h1 : (jsTrim s).data.dropWhile jsWhitespace = (jsTrim s).data :=
    dropWhile_head_eq_self (fun c hc => jsTrim_head hc)
  have h2 : ((s.data.dropWhile jsWhitespace).reverse.dropWhile
        jsWhitespace).dropWhile jsWhitespace =
      (s.data.dropWhile jsWhitespace).reverse.dropWhile jsWhitespace :=
    dropWhile_head_eq_self (fun c hc => head?_dropWhile_ws hc)
  have hdata : (jsTrim (jsTrim s)).data = (jsTrim s).data := by
    rw [jsTrim_data (jsTrim s), h1, jsTrim_data s, List.reverse_reverse, h2]
  exact congrArg String.mk hdata

theorem addExercise_trim_args (d : Doc) (n s : String) :
    addExercise n s d = addExercise (jsTrim n) (jsTrim s) d := by
  unfold addExercise
  rw [jsTrim_idem, jsTrim_idem]

theorem addSection_trim_args (d : Doc) (n : String) :
    addSection n d = addSection (jsTrim n) d := by
  unfold addSection
  rw [jsTrim_idem]

/-! ## Stored strings -/

theorem mem_docStrings {d : Doc} {x : String} :
    x ∈ docStrings d ↔
      x ∈ secNames d ∨ ∃ p ∈ d, ∃ ex ∈ p.2, ex.name = x := by
  simp only [docStrings, List.mem_append, List.mem_flatten, List.mem_map]
  constructor
  · rintro (h | ⟨l, ⟨p, hp, rfl⟩, hx⟩)
    · exact Or.inl h
    · obtain ⟨ex, hex, hxe⟩ := List.mem_map.mp hx
      exact Or.inr ⟨p, hp, ex, hex, hxe⟩
  · rintro (h | ⟨p, hp, ex, hex, hxe⟩)
    · exact Or.inl h
    · exact Or.inr ⟨p.2.map (fun e => e.name), ⟨p, hp, rfl⟩,
        hxe ▸ List.mem_map_of_mem _ hex⟩

theorem docStrings_addExercise {d d' : Doc} {n s : String}
    (h : addExercise n s d = .ok d') :
    ∀ x ∈ docStrings d', x ∈ docStrings d ∨ x = jsTrim n := by
  obtain ⟨exs, hg, _, hd'⟩ := addExercise_ok_inv h
  subst hd'
  intro x hx
  rcases mem_docStrings.mp hx with hsec | ⟨p, hp, ex, hex, hxe⟩
  · rw [secNames_setSec _ _ _ _ hg] at hsec
    exact Or.inl (mem_docStrings.mpr (Or.inl hsec))
  · rcases mem_setSec _ _ _ _ hp with hpd | hpe
    · exact Or.inl (mem_docStrings.mpr (Or.inr ⟨p, hpd, ex, hex, hxe⟩))
    · subst hpe
      rcases List.mem_append.mp hex with he | he
      · exact Or.inl (mem_docStrings.mpr (Or.inr
          ⟨(jsTrim s, exs), getSec_mem _ _ _ hg, ex, he, hxe⟩))
      · simp only [List.mem_singleton] at he
        subst he
        exact Or.inr hxe.symm

theorem docStrings_addSection {d d' : Doc} {n : String}
    (h : addSection n d = .ok d') :
    ∀ x ∈ docStrings d', x ∈ docStrings d ∨ x = jsTrim n := by
  obtain ⟨_, _, hd'⟩ := addSection_ok_inv h
  subst hd'
  intro x hx
  rcases mem_docStrings.mp hx with hsec | ⟨p, hp, ex, hex, hxe⟩
  · simp only [secNames, List.map_append, List.map_cons, List.map_nil,
      List.mem_append, List.mem_singleton] at hsec
    rcases hsec with h1 | h1
    · exact Or.inl (mem_docStrings.mpr (Or.inl h1))
    · exact Or.inr h1
  · rcases List.mem_append.mp hp with hpd | hpe
    · exact Or.inl (mem_docStrings.mpr (Or.inr ⟨p, hpd, ex, hex, hxe⟩))
    · simp only [List.mem_singleton] at hpe
      subst hpe
      simp at hex

theorem docStrings_deleteExercise {d d' : Doc} {s n : String}
    (h : deleteExercise s n d = .ok d') :
    ∀ x ∈ docStrings d', x ∈ docStrings d := by
  obtain ⟨exs, hg, hd'⟩ := deleteExercise_ok_inv h
  subst hd'
  intro x hx
  rcases mem_docStrings.mp hx with hsec | ⟨p, hp, ex, hex, hxe⟩
  · rw [secNames_setSec _ _ _ _ hg] at hsec
    exact mem_docStrings.mpr (Or.inl hsec)
  · rcases mem_setSec _ _ _ _ hp with hpd | hpe
    · exact mem_docStrings.mpr (Or.inr ⟨p, hpd, ex, hex, hxe⟩)
    · subst hpe
      exact mem_docStrings.mpr (Or.inr ⟨(s, exs), getSec_mem _ _ _ hg,
        ex, List.mem_of_mem_filter hex, hxe⟩)

theorem docStrings_deleteSection {d d' : Doc} {n : String}
    (h : deleteSection n d = .ok d') :
    ∀ x ∈ docStrings d', x ∈ docStrings d := by
  obtain ⟨exs, hg, _, hd'⟩ := deleteSection_ok_inv h
  subst hd'
  intro x hx
  rcases mem_docStrings.mp hx with hsec | ⟨p, hp, ex, hex, hxe⟩
  · simp only [secNames, delSec, List.mem_map] at hsec
    obtain ⟨p, hp, rfl⟩ := hsec
    exact mem_docStrings.mpr (Or.inl
      (List.mem_map_of_mem _ (List.mem_of_mem_filter hp)))
  · simp only [delSec] at hp
    exact mem_docStrings.mpr
      (Or.inr ⟨p, List.mem_of_mem_filter hp, ex, hex, hxe⟩)

/-! ## Claim theorems -/

/-- C7: the normalization function is idempotent and migrates the legacy
shape: a value that is already a mapping of sections is returned
unchanged; a legacy ordered sequence of exercise records becomes the
mapping with single key `General` bound to that sequence (in particular
`[{name:"A"}]` becomes `{"General":[{name:"A"}]}`); and normalizing the
result of normalization always yields the same value. -/
theorem normalizeData_migration_idempotent :
    (∀ d : Doc, normalizeData (.obj d) = .obj d)
  ∧ (∀ exs : List Exercise,
      normalizeData (.arr exs) = .obj [("General", exs)])
  ∧ normalizeData (.arr [⟨"A"⟩]) = .obj [("General", [⟨"A"⟩])]
  ∧ (∀ v : JsonDoc, normalizeData (normalizeData v) = normalizeData v) := by
  refine ⟨fun d => rfl, fun exs => rfl, rfl, fun v => ?_⟩
  cases v <;> rfl

/-- C9: the read-only handlers `GET /api/sections` and
`GET /api/exercises` never write to the backing file: after either
completes the persisted value is exactly what it was before the call,
even when the stored document is in the legacy sequence form and is
normalized only in memory for the response. -/
theorem readOnly_handlers_no_write :
    (∀ file : JsonDoc, (runGetExercises file).2 = file)
  ∧ (∀ file : JsonDoc, (runGetSections file).2 = file)
  ∧ (∀ exs : List Exercise,
      runGetExercises (.arr exs) = ([("General", exs)], .arr exs))
  ∧ (∀ exs : List Exercise,
      runGetSections (.arr exs) = (["General"], .arr exs)) :=
  ⟨fun _ => rfl, fun _ => rfl, fun _ => rfl, fun _ => rfl⟩

/-- C6: whenever a mutating handler fails (`InvalidInput`, `NotFound`,
`Conflict`, or the last-section error), it performs no write: the
backing file after the failed request is exactly the file before it, and
the error itself is the synchronous response. -/
theorem failed_mutation_no_write :
    (∀ (file : JsonDoc) (n s : String) (e : StoreError),
      (runAddExercise n s file).1 = .error e →
        (runAddExercise n s file).2 = file)
  ∧ (∀ (file : JsonDoc) (s n : String) (e : StoreError),
      (runDeleteExercise s n file).1 = .error e →
        (runDeleteExercise s n file).2 = file)
  ∧ (∀ (file : JsonDoc) (n : String) (e : StoreError),
      (runAddSection n file).1 = .error e →
        (runAddSection n file).2 = file)
  ∧ (∀ (file : JsonDoc) (n : String) (e : StoreError),
      (runDeleteSection n file).1 = .error e →
        (runDeleteSection n file).2 = file) := by
  refine ⟨fun file n s e h => ?_, fun file s n e h => ?_,
    fun file n e h => ?_, fun file n e h => ?_⟩
  · cases hop : addExercise n s (docOf file) with
    | error e' => simp [runAddExercise, hop]
    | ok d' => simp [runAddExercise, hop] at h
  · cases hop : deleteExercise s n (docOf file) with
    | error e' => simp [runDeleteExercise, hop]
    | ok d' => simp [runDeleteExercise, hop] at h
  · cases hop : addSection n (docOf file) with
    | error e' => simp [runAddSection, hop]
    | ok d' => simp [runAddSection, hop] at h
  · cases hop : deleteSection n (docOf file) with
    | error e' => simp [runDeleteSection, hop]
    | ok d' => simp [runDeleteSection, hop] at h

/-- Witness for C6 at a concrete file: each of the four mutating
handlers, on an input it rejects, leaves the stored value untouched. -/
theorem failed_mutation_no_write_witness :
    (runAddExercise "" "x" (.obj [("General", [])])).2 = .obj [("General", [])]
  ∧ (runDeleteExercise "General" "X" (.obj [("General", [])])).2 =
      .obj [("General", [])]
  ∧ (runAddSection " " (.obj [("General", [])])).2 = .obj [("General", [])]
  ∧ (runDeleteSection "General" (.obj [("General", [])])).2 =
      .obj [("General", [])] :=
  ⟨failed_mutation_no_write.1 _ "" "x"
      (.invalidInput "Exercise name is required") (by decide),
   failed_mutation_no_write.2.1 _ "General" "X"
      (.notFound "Exercise not found") (by decide),
   failed_mutation_no_write.2.2.1 _ " "
      (.invalidInput "Section name is required") (by decide),
   failed_mutation_no_write.2.2.2 _ "General" .lastSection (by decide)⟩

/-- C10: after any successful `DeleteExercise(section, name)` no
exercise whose name exactly equals `name` remains in that section, even
when the pre-state violated the uniqueness invariant and held several
entries with that exact name: the handler filters out every one of
them. -/
theorem deleteExercise_removes_every_match (d d' : Doc) (s n : String)
    (exs' : List Exercise)
    (h : deleteExercise s n d = .ok d')
    (hx : getSec d' s = some exs') :
    Exercise.mk n ∉ exs' := by
  unfold deleteExercise at h
  cases hg : getSec d s with
  | none => rw [hg] at h; cases h
  | some exs =>
    rw [hg] at h
    simp only at h
    by_cases hl : (exs.filter (fun ex => ex.name != n)).length = exs.length
    · rw [if_pos hl] at h; cases h
    · rw [if_neg hl] at h
      have hd' : d' = setSec d s (exs.filter (fun ex => ex.name != n)) := by
        cases h; rfl
      subst hd'
      rw [getSec_setSec_self] at hx
      cases hx
      intro hmem
      have := List.of_mem_filter hmem
      simp [bne_iff_ne] at this

/-- Witness for C10: a pre-state with two entries named `A` in one
section; the single delete removes both. -/
theorem deleteExercise_removes_every_match_witness :
    Exercise.mk "A" ∉ ([⟨"B"⟩] : List Exercise) :=
  deleteExercise_removes_every_match
    [("General", [⟨"A"⟩, ⟨"B"⟩, ⟨"A"⟩])] [("General", [⟨"B"⟩])]
    "General" "A" [⟨"B"⟩] (by decide) (by decide)

/-- C2: `AddExercise` fails with `InvalidInput` when the name or the
section is empty or whitespace-only after trimming, fails with `NotFound`
when the trimmed section is not a key of the document, fails with
`Conflict` when some exercise of that section has a case-insensitively
equal name, and otherwise appends `{name: trimmedName}` as the last
element of that section's sequence, leaving every other entry unchanged
and in order, and returns the full updated document. -/
theorem addExercise_cases (d : Doc) (name sec : String) :
    (jsTrim name = "" ∨ jsTrim sec = "" →
      isInvalidInput (addExercise name sec d) = true)
  ∧ (jsTrim name ≠ "" → jsTrim sec ≠ "" → getSec d (jsTrim sec) = none →
      addExercise name sec d = .error (.notFound "Section not found"))
  ∧ (∀ exs, jsTrim name ≠ "" → jsTrim sec ≠ "" →
      getSec d (jsTrim sec) = some exs →
      exs.any (fun ex => lowerStr ex.name == lowerStr (jsTrim name)) = true →
      addExercise name sec d =
        .error (.conflict "Exercise already exists in this section"))
  ∧ (∀ exs, jsTrim name ≠ "" → jsTrim sec ≠ "" →
      getSec d (jsTrim sec) = some exs →
      exs.any (fun ex => lowerStr ex.name == lowerStr (jsTrim name)) = false →
      ∃ d', addExercise name sec d = .ok d'
        ∧ getSec d' (jsTrim sec) = some (exs ++ [⟨jsTrim name⟩])
        ∧ (∀ k, k ≠ jsTrim sec → getSec d' k = getSec d k)
        ∧ secNames d' = secNames d) := by
  refine ⟨?_, ?_, ?_, ?_⟩
  · intro h
    by_cases h1 : jsTrim name = ""
    · simp [addExercise, h1, isInvalidInput]
    · have h2 : jsTrim sec = "" := h.resolve_left h1
      simp [addExercise, h1, h2, isInvalidInput]
  · intro h1 h2 hg
    simp [addExercise, h1, h2, hg]
  · intro exs h1 h2 hg hdup
    simp [addExercise, h1, h2, hg, hdup]
  · intro exs h1 h2 hg hdup
    refine ⟨setSec d (jsTrim sec) (exs ++ [⟨jsTrim name⟩]), ?_,
      getSec_setSec_self _ _ _,
      fun k hk => getSec_setSec_ne _ _ _ _ hk,
      secNames_setSec _ _ _ _ hg⟩
    simp [addExercise, h1, h2, hg, hdup]

/-- Witness for C2, the spec's own example: adding `push up` to a
section that already holds `Push Up` fails with `Conflict`. -/
theorem addExercise_cases_witness :
    addExercise "push up" "General" [("General", [⟨"Push Up"⟩])] =
      .error (.conflict "Exercise already exists in this section") :=
  (addExercise_cases [("General", [⟨"Push Up"⟩])] "push up" "General").2.2.1
    [⟨"Push Up"⟩] (by decide) (by decide) (by decide) (by decide)

/-- C4: `AddSection` fails with `InvalidInput` when the name is empty or
whitespace-only after trimming, fails with `Conflict` when a section
whose name exactly equals the trimmed name already exists, and otherwise
creates the section with an empty exercise sequence appended after all
existing sections, leaving them unchanged, and returns the full updated
document. -/
theorem addSection_cases (d : Doc) (name : String) :
    (jsTrim name = "" →
      addSection name d = .error (.invalidInput "Section name is required"))
  ∧ (∀ exs, jsTrim name ≠ "" → getSec d (jsTrim name) = some exs →
      addSection name d = .error (.conflict "Section already exists"))
  ∧ (jsTrim name ≠ "" → getSec d (jsTrim name) = none →
      addSection name d = .ok (d ++ [(jsTrim name, [])])) := by
  refine ⟨?_, ?_, ?_⟩
  · intro h1
    simp [addSection, h1]
  · intro exs h1 hg
    simp [addSection, h1, hg]
  · intro h1 hg
    rw [← setSec_of_getSec_none d (jsTrim name) [] hg]
    simp [addSection, h1, hg]

/-- Witness for C4: adding a padded section name to the initial document
stores the trimmed section, appended after `General`. -/
theorem addSection_cases_witness :
    addSection " Legs " initDoc = .ok (initDoc ++ [(jsTrim " Legs ", [])]) :=
  (addSection_cases initDoc " Legs ").2.2 (by decide) (by decide)

/-- C5: `DeleteSection` fails with `NotFound` when no section with
exactly the given name exists, fails with the last-section error when
the name exists and the document has exactly one section (so the last
remaining section can never be deleted), and otherwise removes exactly
that section, leaving every other section and its exercise sequence
unchanged and in order, and returns the full (nonempty) updated
document. -/
theorem deleteSection_cases (d : Doc) (name : String)
    (hnd : (secNames d).Nodup) :
    (getSec d name = none →
      deleteSection name d = .error (.notFound "Section not found"))
  ∧ (∀ exs, getSec d name = some exs → (secNames d).length = 1 →
      deleteSection name d = .error .lastSection)
  ∧ (∀ exs, getSec d name = some exs → (secNames d).length ≠ 1 →
      ∃ l₁ l₂, d = l₁ ++ (name, exs) :: l₂
        ∧ deleteSection name d = .ok (l₁ ++ l₂)
        ∧ l₁ ++ l₂ ≠ []) := by
  refine ⟨?_, ?_, ?_⟩
  · intro hg
    simp [deleteSection, hg]
  · intro exs hg hlen
    simp [deleteSection, hg, hlen]
  · intro exs hg hlen
    obtain ⟨l₁, l₂, hd, hdel⟩ := delSec_decomp d name exs hnd hg
    refine ⟨l₁, l₂, hd, ?_, ?_⟩
    · rw [← hdel]
      simp [deleteSection, hg, hlen]
    · intro hnil
      apply hlen
      have : d.length = l₁.length + l₂.length + 1 := by
        subst hd; simp; omega
      have hz : l₁.length + l₂.length = 0 := by
        have := List.length_eq_zero.mpr hnil
        simpa using this
      simp only [secNames, List.length_map]
      omega

/-- Witness for C5, the spec's scenario step: deleting `General` from
`{"General":[], "Legs":[]}` succeeds and leaves `Legs`. -/
theorem deleteSection_cases_witness :
    ∃ l₁ l₂, [("General", []), ("Legs", [])] = l₁ ++ ("General", []) :: l₂
      ∧ deleteSection "General" [("General", []), ("Legs", [])] =
          .ok (l₁ ++ l₂)
      ∧ l₁ ++ l₂ ≠ [] :=
  (deleteSection_cases [("General", []), ("Legs", [])] "General"
    (by decide)).2.2 [] (by decide) (by decide)

/-- C3: on a document satisfying the add-time uniqueness invariant,
`DeleteExercise` matches names exactly (case-sensitively): it fails with
`NotFound` when the section does not exist or when no exercise with
exactly the given name is in it (even if a case variant is), and on
success removes the single matching entry, leaving the section present
(possibly empty) and every other section unchanged, and returns the full
updated document. -/
theorem deleteExercise_cases (d : Doc) (sec n : String)
    (hinv : ∀ p ∈ d, sectionOk p.2) :
    (getSec d sec = none →
      deleteExercise sec n d = .error (.notFound "Section not found"))
  ∧ (∀ exs, getSec d sec = some exs → Exercise.mk n ∉ exs →
      deleteExercise sec n d = .error (.notFound "Exercise not found"))
  ∧ (∀ exs, getSec d sec = some exs → Exercise.mk n ∈ exs →
      ∃ d', deleteExercise sec n d = .ok d'
        ∧ getSec d' sec = some (exs.erase ⟨n⟩)
        ∧ Exercise.mk n ∉ exs.erase ⟨n⟩
        ∧ (exs.erase ⟨n⟩).length + 1 = exs.length
        ∧ (∀ k, k ≠ sec → getSec d' k = getSec d k)
        ∧ secNames d' = secNames d) := by
  refine ⟨?_, ?_, ?_⟩
  · intro hg
    simp [deleteExercise, hg]
  · intro exs hg hnm
    have hf : exs.filter (fun ex => ex.name != n) = exs :=
      filter_name_of_not_mem hnm
    simp [deleteExercise, hg, hf]
  · intro exs hg hmem
    have hok : sectionOk exs := hinv (sec, exs) (getSec_mem d sec exs hg)
    have hf : exs.filter (fun ex => ex.name != n) = exs.erase ⟨n⟩ :=
      filter_name_eq_erase hok
    have hlt : (exs.filter (fun ex => ex.name != n)).length < exs.length :=
      length_filter_lt_of_mem hmem (by simp)
    have hne : (exs.filter (fun ex => ex.name != n)).length ≠ exs.length :=
      Nat.ne_of_lt hlt
    refine ⟨setSec d sec (exs.erase ⟨n⟩), ?_,
      getSec_setSec_self _ _ _,
      (sectionOk_nodup hok).not_mem_erase,
      ?_,
      fun k hk => getSec_setSec_ne _ _ _ _ hk,
      secNames_setSec _ _ _ _ hg⟩
    · rw [← hf]
      simp [deleteExercise, hg, hne]
    · rw [List.length_erase_of_mem hmem]
      have : 1 ≤ exs.length := List.length_pos.mpr (by
        intro hnil; rw [hnil] at hmem; cases hmem)
      omega

/-- Witness for C3: with `Squat` stored, deleting `squat` fails with
`NotFound` (exact matching), while deleting `Squat` removes the single
entry and leaves the section present and empty. -/
theorem deleteExercise_cases_witness :
    deleteExercise "General" "squat" [("General", [⟨"Squat"⟩])] =
      .error (.notFound "Exercise not found")
  ∧ ∃ d', deleteExercise "General" "Squat" [("General", [⟨"Squat"⟩])] =
        .ok d'
      ∧ getSec d' "General" = some (([⟨"Squat"⟩] : List Exercise).erase ⟨"Squat"⟩)
      ∧ Exercise.mk "Squat" ∉ ([⟨"Squat"⟩] : List Exercise).erase ⟨"Squat"⟩
      ∧ (([⟨"Squat"⟩] : List Exercise).erase ⟨"Squat"⟩).length + 1 =
          ([⟨"Squat"⟩] : List Exercise).length
      ∧ (∀ k, k ≠ "General" →
          getSec d' k = getSec [("General", [⟨"Squat"⟩])] k)
      ∧ secNames d' = secNames [("General", [⟨"Squat"⟩])] :=
  ⟨(deleteExercise_cases [("General", [⟨"Squat"⟩])] "General" "squat"
      (by decide)).2.1 [⟨"Squat"⟩] (by decide) (by decide),
   (deleteExercise_cases [("General", [⟨"Squat"⟩])] "General" "Squat"
      (by decide)).2.2 [⟨"Squat"⟩] (by decide) (by decide)⟩

/-- C8: starting from the initial document `{"General": []}`, every
document reachable by successful store operations contains at least one
section and, within each single section, no two exercises whose names
are equal under case-insensitive comparison. -/
theorem reachable_invariants {d : Doc} (h : Reachable d) :
    d ≠ [] ∧ ∀ p ∈ d, sectionOk p.2 :=
  ⟨(reachable_inv h).1, (reachable_inv h).2.2⟩

/-- Witness for C8 along a concrete run: add section `Legs`, then add
exercise `Squat` to it. -/
theorem reachable_invariants_witness :
    ([("General", []), ("Legs", [⟨"Squat"⟩])] : Doc) ≠ []
  ∧ ∀ p ∈ ([("General", []), ("Legs", [⟨"Squat"⟩])] : Doc),
      sectionOk p.2 := by
  have h1 : addSection "Legs" initDoc =
      .ok [("General", []), ("Legs", [])] := by decide
  have h2 : addExercise "Squat" "Legs" [("General", []), ("Legs", [])] =
      .ok [("General", []), ("Legs", [⟨"Squat"⟩])] := by decide
  exact reachable_invariants
    (Reachable.addEx (Reachable.addSec Reachable.init h1) h2)

/-- C1 counterexample: the delete handlers do not trim their
user-supplied arguments before comparison.  With `Squat` stored,
`DeleteExercise("General", " Squat ")` fails with `NotFound` although the
trimmed argument would match, and `DeleteSection(" Legs ")` fails with
`NotFound` although the trimmed argument names an existing section. -/
theorem delete_untrimmed_counterexample :
    deleteExercise "General" " Squat " [("General", [⟨"Squat"⟩])] =
      .error (.notFound "Exercise not found")
  ∧ deleteExercise "General" (jsTrim " Squat ") [("General", [⟨"Squat"⟩])] =
      .ok [("General", [])]
  ∧ deleteSection " Legs " [("General", []), ("Legs", [])] =
      .error (.notFound "Section not found")
  ∧ deleteSection (jsTrim " Legs ") [("General", []), ("Legs", [])] =
      .ok [("General", [])] := by decide

/-- C1 amended: only the add operations trim user-supplied arguments —
`AddExercise` and `AddSection` behave as if called on the trimmed
arguments, and any string they persist beyond those already in the
document is the trimmed input; the delete operations use their
percent-decoded arguments exactly as given (see the counterexample) but
persist no new strings at all; and a trimmed string never begins or ends
with whitespace — so the persisted document never contains a name with
leading or trailing whitespace that came from user input. -/
theorem trim_amended :
    (∀ (d : Doc) (n s : String),
      addExercise n s d = addExercise (jsTrim n) (jsTrim s) d)
  ∧ (∀ (d : Doc) (n : String), addSection n d = addSection (jsTrim n) d)
  ∧ (∀ (d : Doc) (n s : String) (d' : Doc), addExercise n s d = .ok d' →
      ∀ x ∈ docStrings d', x ∈ docStrings d ∨ x = jsTrim n)
  ∧ (∀ (d : Doc) (n : String) (d' : Doc), addSection n d = .ok d' →
      ∀ x ∈ docStrings d', x ∈ docStrings d ∨ x = jsTrim n)
  ∧ (∀ (d : Doc) (s n : String) (d' : Doc), deleteExercise s n d = .ok d' →
      ∀ x ∈ docStrings d', x ∈ docStrings d)
  ∧ (∀ (d : Doc) (n : String) (d' : Doc), deleteSection n d = .ok d' →
      ∀ x ∈ docStrings d', x ∈ docStrings d)
  ∧ (∀ (s : String) (c : Char),
      (jsTrim s).data.head? = some c → jsWhitespace c = false)
  ∧ (∀ (s : String) (c : Char),
      (jsTrim s).data.getLast? = some c → jsWhitespace c = false) :=
  ⟨addExercise_trim_args, addSection_trim_args,
   fun _ _ _ _ h => docStrings_addExercise h,
   fun _ _ _ h => docStrings_addSection h,
   fun _ _ _ _ h => docStrings_deleteExercise h,
   fun _ _ _ h => docStrings_deleteSection h,
   fun _ _ h => jsTrim_head h,
   fun _ _ h => jsTrim_last h⟩

/-- Witness for the amended C1: adding the padded name `  Lunge  ` to
the initial document persists, beyond the strings already present, only
the trimmed form `Lunge`. -/
theorem trim_amended_witness :
    "Lunge" ∈ docStrings initDoc ∨ "Lunge" = jsTrim "  Lunge  " :=
  trim_amended.2.2.1 initDoc "  Lunge  " "General"
    [("General", [⟨"Lunge"⟩])] (by decide) "Lunge" (by decide)

/-- The spec scenario, end to end on stores: from the initial document,
adding section `Legs`, adding `Squat` to it, deleting that exercise, and
deleting `General` all succeed, and the final `DeleteSection("Legs")`
fails with the last-section error. -/
theorem spec_scenario :
    addSection "Legs" initDoc = .ok [("General", []), ("Legs", [])]
  ∧ addExercise "Squat" "Legs" [("General", []), ("Legs", [])] =
      .ok [("General", []), ("Legs", [⟨"Squat"⟩])]
  ∧ deleteExercise "Legs" "Squat" [("General", []), ("Legs", [⟨"Squat"⟩])] =
      .ok [("General", []), ("Legs", [])]
  ∧ deleteSection "General" [("General", []), ("Legs", [])] =
      .ok [("Legs", [])]
  ∧ deleteSection "Legs" [("Legs", [])] = .error .lastSection := by decide

end ExerciseTracker
